import Mathlib

/-!
# Verification of `maestro_all_to_allure.py`

A shallow embedding, in Lean 4, of the core of the repository's script
`.github/actions/generate-allure-files/maestro_all_to_allure.py`:

* the line parser (`LINE_RE`, `TIME_RE`, `parse_hms_ms`, name normalization);
* the step-tree builder (`build_step_tree`), modelled with an explicit arena of
  nodes, because the Python code keeps aliases of the same mutable `StepNode`
  both on the open-stack and inside the forest;
* the report assembler (`any_failed`, the time-base resolution, the timestamp
  shift of `StepNode.to_allure`, and the history-key seed construction of
  `result_from_tree`).

Python `int` timestamps produced by `parse_hms_ms` are milliseconds since
midnight and hence non-negative; they are modelled as `Nat`.  Epoch arithmetic
in the report assembler may go negative and is modelled as `Int`.

The regular expressions are embedded as deterministic parsers over `List Char`
that are equivalent to Python's backtracking semantics on the inputs the
program feeds them (single lines produced by `str.splitlines`, which contain
no line-break characters); the equivalence argument is documented at each
definition.  Character classes are modelled at their ASCII meaning, which is
the alphabet of Maestro logs.
-/

namespace Maestro

/-- Python `\s` (ASCII range): space, tab, newline, carriage return,
vertical tab, form feed. -/
def isWs (c : Char) : Bool :=
  c == ' ' || c == '\t' || c == '\n' || c == '\r' || c == '\x0b' || c == '\x0c'

/-- Python `\d` (ASCII range). -/
def isDigit (c : Char) : Bool := '0' ≤ c && c ≤ '9'

/-- Python `\w` (ASCII range): letters, digits, underscore. -/
def isWordChar (c : Char) : Bool :=
  ('a' ≤ c && c ≤ 'z') || ('A' ≤ c && c ≤ 'Z') || isDigit c || c == '_'

/-- The character class `[\w$.]` used for the qualified invoker name in
`LINE_RE`. -/
def isInvokerChar (c : Char) : Bool := isWordChar c || c == '$' || c == '.'

/-- Numeric value of a decimal digit character (Python `int` on a digit). -/
def digitVal (c : Char) : Nat := c.toNat - '0'.toNat

/-- `TIME_RE = ^(\d{2}):(\d{2}):(\d{2})\.(\d{3})` followed by the millisecond
computation of `parse_hms_ms` (source lines 79–89): anchored at the start,
trailing characters allowed, returns `none` exactly when the pattern does not
match. -/
def parse_hms_ms (cs : List Char) : Option Nat :=
  match cs with
  | h1 :: h2 :: c1 :: m1 :: m2 :: c2 :: s1 :: s2 :: p :: x1 :: x2 :: x3 :: _ =>
    if isDigit h1 && isDigit h2 && c1 == ':' && isDigit m1 && isDigit m2 && c2 == ':' &&
       isDigit s1 && isDigit s2 && p == '.' && isDigit x1 && isDigit x2 && isDigit x3
    then
      let h := digitVal h1 * 10 + digitVal h2
      let m := digitVal m1 * 10 + digitVal m2
      let s := digitVal s1 * 10 + digitVal s2
      let ms := digitVal x1 * 100 + digitVal x2 * 10 + digitVal x3
      some (((h * 3600 + m * 60 + s) * 1000) + ms)
    else none
  | _ => none

/-- The `(?P<time>\d{2}:\d{2}:\d{2}\.\d{3})` group at the start of `LINE_RE`:
on success returns the twelve matched characters and the remainder of the
line. -/
def matchTime : List Char → Option (List Char × List Char)
  | h1 :: h2 :: c1 :: m1 :: m2 :: c2 :: s1 :: s2 :: p :: x1 :: x2 :: x3 :: rest =>
    if isDigit h1 && isDigit h2 && c1 == ':' && isDigit m1 && isDigit m2 && c2 == ':' &&
       isDigit s1 && isDigit s2 && p == '.' && isDigit x1 && isDigit x2 && isDigit x3
    then some ([h1, h2, ':', m1, m2, ':', s1, s2, '.', x1, x2, x3], rest)
    else none
  | _ => none

/-- First alternative of the invoker group: `TestSuiteInteractor\.invoke`. -/
def invokerAlt1 : List Char := "TestSuiteInteractor.invoke".toList

/-- Stem of the second alternative: `MaestroCommandRunner\.runCommands\$lambda\$`
(followed by `\d+`). -/
def invokerAlt2 : List Char := "MaestroCommandRunner.runCommands$lambda$".toList

/-- The optional qualifier `(?:[\w$.]+\.)?`: empty, or at least one class
character followed by a dot (so, at least two characters ending in `.`;
its characters are a subset of the invoker run and need no further check). -/
def qualifierOk (p : List Char) : Bool :=
  p.isEmpty || (p.getLast? == some '.' && 2 ≤ p.length)

/-- Whether a maximal run `r` of `[\w$.]` characters matches
`(?:[\w$.]+\.)?(?:TestSuiteInteractor\.invoke|MaestroCommandRunner\.runCommands\$lambda\$\d+)`.

Since every character of both alternatives lies in `[\w$.]` and the regex
requires a literal `:` immediately after the group, any successful match must
consume the whole maximal run; so the run matches iff it ends in alternative 1,
or ends in alternative 2's stem followed by its (maximal) trailing digit run,
with an admissible optional qualifier in front. -/
def invokerOk (r : List Char) : Bool :=
  (invokerAlt1.isSuffixOf r && qualifierOk (r.take (r.length - invokerAlt1.length)))
  ||
  (let k := (r.reverse.takeWhile isDigit).length
   if k == 0 then false
   else
     let r' := r.take (r.length - k)
     invokerAlt2.isSuffixOf r' && qualifierOk (r'.take (r'.length - invokerAlt2.length)))

/-- The three step states recognized by `LINE_RE`. -/
inductive EvKind where
  | start     -- RUNNING
  | complete  -- COMPLETED
  | fail      -- FAILED
deriving DecidableEq, Repr

/-- Which state word (`RUNNING|COMPLETED|FAILED`) ends the whitespace-stripped
tail of the line.  At most one of the three words can be a suffix of a given
string. -/
def suffixState (s : List Char) : Option (List Char × EvKind) :=
  if "RUNNING".toList.isSuffixOf s then some ("RUNNING".toList, EvKind.start)
  else if "COMPLETED".toList.isSuffixOf s then some ("COMPLETED".toList, EvKind.complete)
  else if "FAILED".toList.isSuffixOf s then some ("FAILED".toList, EvKind.fail)
  else none

/-- The tail pattern `\s+(?P<name>.+?)\s+(?P<state>RUNNING|COMPLETED|FAILED)\s*$`
applied to `u`, the text following the invoker's `:`.  Returns the raw
captured `name` group and the state.

Equivalence with the backtracking semantics (on newline-free `u`): any match
decomposes `u` as `w1 ++ name ++ w2 ++ state ++ w3` with `w1, w2` non-empty
whitespace, `w3` whitespace, `name` non-empty.  Since `\s*$` forces the state
word to end exactly where the trailing whitespace begins, `state` is the
unique state-word suffix of `s := rstrip u`, and `b := s` minus that word must
be non-empty, begin and end with whitespace, and have length at least 3.
The engine maximizes `w1` and then minimizes `name`, so: if `b` still holds a
non-whitespace character, `name` is `b` stripped of outer whitespace;
otherwise (`b` entirely whitespace) `w1` takes all but the last two characters
and `name` is the single whitespace character at position `b.length - 2`. -/
def extractNameState (u : List Char) : Option (List Char × EvKind) :=
  let s := (u.reverse.dropWhile isWs).reverse
  match suffixState s with
  | none => none
  | some (st, kind) =>
    if s.length ≤ st.length then none
    else
      let b := s.take (s.length - st.length)
      let headWs := match b.head? with | some c => isWs c | none => false
      let lastWs := match b.getLast? with | some c => isWs c | none => false
      if headWs && lastWs && 3 ≤ b.length then
        let t := b.dropWhile isWs
        let nm :=
          if t.isEmpty then (b.take (b.length - 1)).drop (b.length - 2)
          else (t.reverse.dropWhile isWs).reverse
        some (nm, kind)
      else none

/-- The part of `LINE_RE` following the time group, applied to the remainder
of the line:

`\s+\[\s*\w+\]\s+(?:[\w$.]+\.)?`
`(?:TestSuiteInteractor\.invoke|MaestroCommandRunner\.runCommands\$lambda\$\d+):`
`\s+(?P<name>.+?)\s+(?P<state>RUNNING|COMPLETED|FAILED)\s*$`

Each greedy `\s+`/`\s*`/`\w+` is followed by a character outside its class, so
maximal munch is faithful; the invoker group and the lazy name group are
handled by `invokerOk` and `extractNameState`.  Returns the raw captured name
and the state. -/
def lineMatchRest (r1 : List Char) : Option (List Char × EvKind) :=
  match r1 with
  | [] => none
  | c :: r2 =>
    if !isWs c then none
    else
      match r2.dropWhile isWs with
      | '[' :: r4 =>
        let r5 := r4.dropWhile isWs
        if (r5.takeWhile isWordChar).isEmpty then none
        else
          match r5.dropWhile isWordChar with
          | ']' :: (d :: r7) =>
            if !isWs d then none
            else
              let r8 := r7.dropWhile isWs
              let run := r8.takeWhile isInvokerChar
              match r8.dropWhile isInvokerChar with
              | ':' :: r9 =>
                if invokerOk run then extractNameState r9
                else none
              | _ => none
          | _ => none
      | _ => none

/-- `LINE_RE` (source lines 75–77) as a deterministic parser over one line
(no line-break characters, as produced by `str.splitlines`): the anchored
time group followed by `lineMatchRest`.  On success returns the captured
time characters, the raw name characters, and the state. -/
def lineMatch (line : List Char) : Option (List Char × List Char × EvKind) :=
  match matchTime line with
  | none => none
  | some (tchars, r1) =>
    match lineMatchRest r1 with
    | some (nm, k) => some (tchars, nm, k)
    | none => none

/-- `str.strip()`: remove leading and trailing whitespace. -/
def stripWs (cs : List Char) : List Char :=
  ((cs.dropWhile isWs).reverse.dropWhile isWs).reverse

/-- Helper for `re.sub(r"\s+", " ", ·)`: collapse every run of whitespace to a
single space; the flag records whether the previous character was whitespace. -/
def collapseWs : Bool → List Char → List Char
  | _, [] => []
  | prevWs, c :: rest =>
    if isWs c then
      if prevWs then collapseWs true rest else ' ' :: collapseWs true rest
    else c :: collapseWs false rest

/-- `re.sub(r"\s+", " ", raw.strip())` (source line 142). -/
def normalizeName (cs : List Char) : List Char :=
  collapseWs false (stripWs cs)

/-- A parsed event (§3 of the spec): the timestamp may be absent when the
numeric conversion fails, the name is whitespace-normalized. -/
structure Event where
  ts : Option Nat
  name : String
  kind : EvKind
deriving DecidableEq, Repr

/-- One iteration of the parsing part of the `build_step_tree` loop (source
lines 138–143): match `LINE_RE`, convert the time group with `parse_hms_ms`,
normalize the name. -/
def parseLine (line : List Char) : Option Event :=
  match lineMatch line with
  | none => none
  | some (tchars, rawName, k) =>
    some { ts := parse_hms_ms tchars, name := String.mk (normalizeName rawName), kind := k }

/-- `str.splitlines` restricted to the line boundaries `\r\n`, `\r`, `\n`
(the ones occurring in Maestro logs); no trailing empty line. -/
def splitLinesAux : List Char → List Char → List (List Char)
  | [], acc => if acc.isEmpty then [] else [acc.reverse]
  | '\r' :: '\n' :: rest, acc => acc.reverse :: splitLinesAux rest []
  | '\r' :: rest, acc => acc.reverse :: splitLinesAux rest []
  | '\n' :: rest, acc => acc.reverse :: splitLinesAux rest []
  | c :: rest, acc => splitLinesAux rest (c :: acc)

/-- `log_text.splitlines()`. -/
def splitLines (cs : List Char) : List (List Char) := splitLinesAux cs []

/-- The event sequence extracted from a log text: every line of the log, in
order, keeping those that match `LINE_RE` (source lines 137–140). -/
def parseLog (log : List Char) : List Event :=
  (splitLines log).filterMap parseLine

/-! ## Step tree builder

The Python `build_step_tree` keeps the *same* mutable `StepNode` objects both
inside the forest (as roots or children) and on the open-stack, and mutates
them in place when a close event arrives.  The embedding therefore uses an
arena: `NodeData` entries indexed by their position of creation, with
`children`, `roots` and `stack` holding indices.  The pure tree is
materialized at the end by `toTree`. -/

/-- The mutable fields of a Python `StepNode` (source lines 102–109), with
children as arena indices.  `status` is a string, exactly as in the source. -/
structure NodeData where
  name : String
  start : Option Nat
  stop : Option Nat
  status : String
  children : List Nat
deriving DecidableEq, Repr

/-- Placeholder returned by arena lookups at an out-of-range index (never
reached from a well-formed state). -/
def dfltNode : NodeData := { name := "", start := none, stop := none,
                             status := "passed", children := [] }

/-- Arena lookup. -/
def nodeAt (nodes : List NodeData) (id : Nat) : NodeData :=
  (nodes.get? id).getD dfltNode

/-- In-place update of the arena entry at index `i`. -/
def modifyAt {α : Type} (i : Nat) (f : α → α) : List α → List α
  | [] => []
  | x :: xs =>
    match i with
    | 0 => f x :: xs
    | n + 1 => x :: modifyAt n f xs

/-- State of the `build_step_tree` loop: the arena, the root indices, the
open-stack (top at the end of the list, as in the Python list), and the two
timestamp bounds. -/
structure BState where
  nodes : List NodeData
  roots : List Nat
  stack : List Nat
  first : Option Nat
  last : Option Nat
deriving DecidableEq, Repr

/-- The state before any event is processed. -/
def initState : BState := { nodes := [], roots := [], stack := [], first := none, last := none }

/-- The openness-and-name test of the close-event search (source line 153):
`stack[i].name == name and stack[i].stop is None`. -/
def isOpenMatch (nodes : List NodeData) (nm : String) (id : Nat) : Bool :=
  match nodes.get? id with
  | some nd => nd.name == nm && nd.stop == none
  | none => false

/-- The search loop of source lines 151–155: the *largest* stack position
holding a still-open node with the event's name (the stack top is the end of
the list, so the recursion prefers a match found in the tail). -/
def lastOpenMatchPos (nodes : List NodeData) (nm : String) : List Nat → Option Nat
  | [] => none
  | id :: rest =>
    match lastOpenMatchPos nodes nm rest with
    | some j => some (j + 1)
    | none => if isOpenMatch nodes nm id then some 0 else none

/-- `"passed" if state == "COMPLETED" else "failed"` (source lines 159, 166). -/
def closeStatus (isFail : Bool) : String := if isFail then "failed" else "passed"

/-- `last_ts = ts if last_ts is None else max(last_ts, ts)`, guarded by
`ts is not None` (source lines 161–162, 167–168, 174–175). -/
def updLast (last ts : Option Nat) : Option Nat :=
  match ts with
  | none => last
  | some t => match last with
    | none => some t
    | some l => some (max l t)

/-- `if first_ts is None and ts is not None: first_ts = ts` (source lines
144–145); runs for every matched line before the state dispatch. -/
def noteFirst (s : BState) (ts : Option Nat) : BState :=
  if s.first = none ∧ ts.isSome then { s with first := ts } else s

/-- The RUNNING branch (source lines 146–149): create a node, append it to the
top-of-stack node's children (or to the roots when the stack is empty), and
push it. -/
def pushStart (s : BState) (nm : String) (ts : Option Nat) : BState :=
  let id := s.nodes.length
  let node : NodeData := { name := nm, start := ts, stop := none,
                           status := "passed", children := [] }
  match s.stack.getLast? with
  | none =>
    { s with nodes := s.nodes ++ [node], roots := s.roots ++ [id], stack := s.stack ++ [id] }
  | some pid =>
    { s with
        nodes := (modifyAt pid (fun p => { p with children := p.children ++ [id] }) s.nodes)
                   ++ [node],
        stack := s.stack ++ [id] }

/-- The COMPLETED/FAILED branch (source lines 150–168).  A found match is
popped from its stack position and closed in place (`stop` from the event's
timestamp, falling back to the node's own `start`); otherwise a synthetic
already-closed node is appended to the roots.  Either way `last` is updated
when the event carries a timestamp. -/
def procClose (s : BState) (nm : String) (ts : Option Nat) (isFail : Bool) : BState :=
  match lastOpenMatchPos s.nodes nm s.stack with
  | none =>
    let node : NodeData := { name := nm, start := ts, stop := ts,
                             status := closeStatus isFail, children := [] }
    { s with nodes := s.nodes ++ [node], roots := s.roots ++ [s.nodes.length],
             last := updLast s.last ts }
  | some pos =>
    let id := (s.stack.get? pos).getD 0
    { s with
        nodes := modifyAt id
          (fun n => { n with stop := if ts.isSome then ts else n.start,
                             status := closeStatus isFail }) s.nodes,
        stack := s.stack.eraseIdx pos,
        last := updLast s.last ts }

/-- One iteration of the event loop of `build_step_tree`. -/
def procEvent (s : BState) (e : Event) : BState :=
  let s1 := noteFirst s e.ts
  match e.kind with
  | EvKind.start => pushStart s1 e.name e.ts
  | EvKind.complete => procClose s1 e.name e.ts false
  | EvKind.fail => procClose s1 e.name e.ts true

/-- The closing mutation of the end-of-stream pass (source lines 172–173):
`node.stop = node.start; node.status = "failed"`. -/
def markForcedClosed (n : NodeData) : NodeData :=
  { n with stop := n.start, status := "failed" }

/-- The `while stack` loop of source lines 170–175, processing the popped ids
in order (`ids` is the reversed stack).  After setting `stop := start`, `last`
is updated with the new `stop` when it is present. -/
def forceCloseRun : List NodeData → Option Nat → List Nat → List NodeData × Option Nat
  | nodes, last, [] => (nodes, last)
  | nodes, last, id :: rest =>
    let st := (nodeAt nodes id).start
    forceCloseRun (modifyAt id markForcedClosed nodes) (updLast last st) rest

/-- The end-of-stream pass: force-close everything still on the stack, from
the top down. -/
def finalizeStack (s : BState) : BState :=
  let r := forceCloseRun s.nodes s.last s.stack.reverse
  { s with nodes := r.1, last := r.2, stack := [] }

/-- The complete builder state after an event sequence. -/
def runEvents (events : List Event) : BState :=
  finalizeStack (events.foldl procEvent initState)

/-- The pure result tree (§3 of the spec): Python's `StepNode` once building
has finished. -/
inductive StepNode where
  | mk : String → Option Nat → Option Nat → String → List StepNode → StepNode
deriving Repr

def StepNode.name : StepNode → String
  | .mk n _ _ _ _ => n

def StepNode.start : StepNode → Option Nat
  | .mk _ s _ _ _ => s

def StepNode.stop : StepNode → Option Nat
  | .mk _ _ t _ _ => t

def StepNode.status : StepNode → String
  | .mk _ _ _ st _ => st

def StepNode.children : StepNode → List StepNode
  | .mk _ _ _ _ cs => cs

/-- Materialize the tree rooted at arena index `id`.  In any state reachable
by the builder a node's children have strictly larger indices than the node,
so fuel `nodes.length` suffices to reproduce the whole tree. -/
def toTree (nodes : List NodeData) : Nat → Nat → StepNode
  | 0, id =>
    let n := nodeAt nodes id
    StepNode.mk n.name n.start n.stop n.status []
  | fuel + 1, id =>
    let n := nodeAt nodes id
    StepNode.mk n.name n.start n.stop n.status (n.children.map (toTree nodes fuel))

/-- The forest described by a builder state. -/
def stateForest (s : BState) : List StepNode :=
  s.roots.map (toTree s.nodes s.nodes.length)

/-- `build_step_tree` at the granularity of parsed events: the forest, the
first timestamp seen, and the last close timestamp. -/
def buildFromEvents (events : List Event) : List StepNode × Option Nat × Option Nat :=
  let s := runEvents events
  (stateForest s, s.first, s.last)

/-- `build_step_tree(log_text)` (source lines 131–177). -/
def build_step_tree (log : List Char) : List StepNode × Option Nat × Option Nat :=
  buildFromEvents (parseLog log)

/-! ## Report assembler -/

/-- The recursive `any_failed` of `result_from_tree` (source lines 219–225):
a node counts as failed when its status is not `"passed"`; children are
scanned only when the child list is non-empty. -/
def any_failed : List StepNode → Bool
  | [] => false
  | StepNode.mk _ _ _ st cs :: rest =>
    if st != "passed" then true
    else if !cs.isEmpty && any_failed cs then true
    else any_failed rest

/-- `status = "failed" if any_failed(roots) else "passed"` (source line 227). -/
def overall_status (roots : List StepNode) : String :=
  if any_failed roots then "failed" else "passed"

/-- `duration = (last_ms or 0) - (first_ms or 0) if (first_ms is not None and
last_ms is not None) else 0` (source line 233).  When both bounds are present
`x or 0` equals the bound itself (also when it is `0`). -/
def duration_ms (first last : Option Nat) : Int :=
  match first, last with
  | some f, some l => (l : Int) - (f : Int)
  | _, _ => 0

/-- Time-base resolution of `result_from_tree` (source lines 229–234); `now`
stands for the wall clock read in the fallback branch. -/
def base_epoch_ms (bs_start : Option Int) (first last : Option Nat) (now : Int) : Int :=
  match bs_start, first with
  | some b, some f => b - (f : Int)
  | _, _ => now - max 0 (duration_ms first last)

/-- `start_ms` of the result record (source line 236); `now` stands for the
wall clock read when no first timestamp exists. -/
def record_start_ms (base : Int) (first : Option Nat) (now : Int) : Int :=
  match first with
  | some f => base + (f : Int)
  | none => now

/-- `stop_ms` of the result record (source line 237). -/
def record_stop_ms (base : Int) (first last : Option Nat) (start : Int) : Int :=
  match last, first with
  | some l, some _ => base + (l : Int)
  | _, _ => start

/-- The `shift` closure of `StepNode.to_allure` (source lines 112–117):
an absent value falls back to the base epoch; with a known first timestamp the
value is clamped with `max(0, v - first)` before shifting. -/
def shift (base_epoch_ms : Int) (first_rel_ms : Option Nat) (v : Option Nat) : Int :=
  match v with
  | none => base_epoch_ms
  | some x =>
    match first_rel_ms with
    | none => base_epoch_ms + (x : Int)
    | some f => base_epoch_ms + max 0 ((x : Int) - (f : Int))

/-- The history seed of `result_from_tree` (source lines 249–251): suite and
test joined by `:`, with the discriminator appended only when it is truthy
(Python's `if history_discriminator:` is false for an empty string). -/
def mk_hist_seed (suite test : String) (disc : Option String) : String :=
  let seed := suite ++ ":" ++ test
  match disc with
  | some d => if d.isEmpty then seed else seed ++ ":" ++ d
  | none => seed

/-- `history_id = uuid5(NAMESPACE_URL, hist_seed)` (source line 252), with the
fixed-namespace `uuid5` modelled as an arbitrary function of the seed: its
internals (SHA-1) are irrelevant to the determinism claim, which only needs
that the same function is applied to the seed on every invocation. -/
def history_id (uuid5NsUrl : String → String) (suite test : String) (disc : Option String) :
    String :=
  uuid5NsUrl (mk_hist_seed suite test disc)

/-! ## Predicates used by the claims -/

/-- A terminal-state node: `stop` defined and status one of the two terminal
strings. -/
def stepOk (n : StepNode) : Bool :=
  n.stop.isSome && (n.status == "passed" || n.status == "failed")

/-- Status is one of the two values of the spec's data model. -/
def statusValid (n : StepNode) : Bool :=
  n.status == "passed" || n.status == "failed"

/-- Status is `"passed"`. -/
def isPassedB (n : StepNode) : Bool := n.status == "passed"

/-- `p` holds on every node of every tree of the forest, at any depth. -/
def allForest (p : StepNode → Bool) : List StepNode → Bool
  | [] => true
  | StepNode.mk nm s t st cs :: rest =>
    p (StepNode.mk nm s t st cs) && allForest p cs && allForest p rest

/-- Some node of the tree, at any depth (the root included), has status
`"failed"`. -/
inductive HasFailed : StepNode → Prop where
  | here (n : StepNode) : n.status = "failed" → HasFailed n
  | child (n c : StepNode) : c ∈ n.children → HasFailed c → HasFailed n

/-- The builder-state invariant: indices in range, every node carries a start
timestamp (true whenever every processed event carried one), every node off
the open-stack is closed, and statuses take only the two terminal values. -/
structure Inv (s : BState) : Prop where
  roots_lt : ∀ i ∈ s.roots, i < s.nodes.length
  stack_lt : ∀ i ∈ s.stack, i < s.nodes.length
  child_lt : ∀ nd ∈ s.nodes, ∀ c ∈ nd.children, c < s.nodes.length
  start_some : ∀ nd ∈ s.nodes, nd.start.isSome = true
  closed_stop : ∀ i nd, s.nodes.get? i = some nd → i ∉ s.stack → nd.stop.isSome = true
  status_ok : ∀ nd ∈ s.nodes, nd.status = "passed" ∨ nd.status = "failed"

/-! Small concrete states used by the witnesses. -/

/-- A single open node named `"A"`, started at 1 ms. -/
def nodeA : NodeData :=
  { name := "A", start := some 1, stop := none, status := "passed", children := [] }

/-- A state with `nodeA` open on the stack. -/
def wOpenState : BState :=
  { nodes := [nodeA], roots := [0], stack := [0], first := some 1, last := none }

/-! ## Helper lemmas about `modifyAt` and the open-stack search -/

lemma modifyAt_nil {α : Type} (i : Nat) (f : α → α) : modifyAt i f ([] : List α) = [] := by
  cases i <;> rfl

lemma modifyAt_cons_zero {α : Type} (f : α → α) (x : α) (xs : List α) :
    modifyAt 0 f (x :: xs) = f x :: xs := rfl

lemma modifyAt_cons_succ {α : Type} (n : Nat) (f : α → α) (x : α) (xs : List α) :
    modifyAt (n + 1) f (x :: xs) = x :: modifyAt n f xs := rfl

lemma length_modifyAt {α : Type} (f : α → α) :
    ∀ (i : Nat) (l : List α), (modifyAt i f l).length = l.length := by
  intro i l
  induction l generalizing i with
  | nil => rw [modifyAt_nil]
  | cons x xs ih =>
    cases i with
    | zero => rfl
    | succ n => rw [modifyAt_cons_succ]; simp [ih]

lemma get?_modifyAt {α : Type} (f : α → α) :
    ∀ (i j : Nat) (l : List α),
      (modifyAt i f l).get? j = if j = i then (l.get? i).map f else l.get? j := by
  intro i j l
  induction l generalizing i j with
  | nil => rw [modifyAt_nil]; simp
  | cons x xs ih =>
    cases i with
    | zero =>
      cases j with
      | zero => rw [modifyAt_cons_zero]; simp
      | succ m => rw [modifyAt_cons_zero]; simp
    | succ n =>
      cases j with
      | zero => rw [modifyAt_cons_succ]; simp
      | succ m =>
        rw [modifyAt_cons_succ, List.get?_cons_succ, List.get?_cons_succ, ih n m]
        by_cases h : m = n <;> simp [h]

lemma mem_modifyAt {α : Type} (f : α → α) (i : Nat) (l : List α) (a : α)
    (h : a ∈ modifyAt i f l) : a ∈ l ∨ ∃ x, l.get? i = some x ∧ a = f x := by
  induction l generalizing i with
  | nil => rw [modifyAt_nil] at h; simp at h
  | cons x xs ih =>
    cases i with
    | zero =>
      rw [modifyAt_cons_zero] at h
      rcases List.mem_cons.1 h with h' | h'
      · exact Or.inr ⟨x, rfl, h'⟩
      · exact Or.inl (List.mem_cons_of_mem _ h')
    | succ n =>
      rw [modifyAt_cons_succ] at h
      rcases List.mem_cons.1 h with h' | h'
      · exact Or.inl (h' ▸ List.mem_cons_self _ _)
      · rcases ih n h' with h'' | ⟨y, hy, ha⟩
        · exact Or.inl (List.mem_cons_of_mem _ h'')
        · exact Or.inr ⟨y, by simpa using hy, ha⟩

lemma mem_eraseIdx_of_ne {α : Type} {l : List α} {a b : α} {pos : Nat}
    (ha : a ∈ l) (hb : l.get? pos = some b) (hne : a ≠ b) : a ∈ l.eraseIdx pos := by
  induction l generalizing pos with
  | nil => simp at ha
  | cons x xs ih =>
    cases pos with
    | zero =>
      simp only [List.get?_cons_zero, Option.some.injEq] at hb
      rcases List.mem_cons.1 ha with h | h
      · exact absurd (h.trans hb) hne
      · simpa [List.eraseIdx] using h
    | succ n =>
      simp only [List.get?_cons_succ] at hb
      rcases List.mem_cons.1 ha with h | h
      · simp [List.eraseIdx, h]
      · simpa [List.eraseIdx] using Or.inr (ih h hb)

lemma mem_of_mem_eraseIdx {α : Type} {l : List α} {a : α} {pos : Nat}
    (h : a ∈ l.eraseIdx pos) : a ∈ l := by
  induction l generalizing pos with
  | nil => simp [List.eraseIdx] at h
  | cons x xs ih =>
    cases pos with
    | zero => simpa [List.eraseIdx] using Or.inr h
    | succ n =>
      rcases List.mem_cons.1 h with h' | h'
      · simp [h']
      · exact List.mem_cons_of_mem _ (ih h')

/-- Unfolding of the openness test on a successful lookup. -/
lemma isOpenMatch_iff (nodes : List NodeData) (nm : String) (id : Nat) :
    isOpenMatch nodes nm id = true ↔
      ∃ nd, nodes.get? id = some nd ∧ nd.name = nm ∧ nd.stop = none := by
  unfold isOpenMatch
  cases h : nodes.get? id with
  | none => simp
  | some nd => simp [h]

/-- A failed search means no still-open node with that name anywhere on the
stack. -/
lemma lastOpenMatchPos_none (nodes : List NodeData) (nm : String) :
    ∀ stack, lastOpenMatchPos nodes nm stack = none →
      ∀ id ∈ stack, isOpenMatch nodes nm id = false := by
  intro stack
  induction stack with
  | nil => intro _ id h; simp at h
  | cons x xs ih =>
    intro h id hid
    unfold lastOpenMatchPos at h
    cases hx : lastOpenMatchPos nodes nm xs with
    | some j => rw [hx] at h; simp at h
    | none =>
      rw [hx] at h
      rcases List.mem_cons.1 hid with h' | h'
      · subst h'
        by_cases hm : isOpenMatch nodes nm id = true
        · simp [hm] at h
        · simpa using hm
      · exact ih hx id h'

/-- A successful search returns the largest stack position holding a
still-open node with the event's name: the returned position matches, and no
position above it does. -/
lemma lastOpenMatchPos_spec (nodes : List NodeData) (nm : String) :
    ∀ stack pos, lastOpenMatchPos nodes nm stack = some pos →
      ∃ id, stack.get? pos = some id ∧ isOpenMatch nodes nm id = true ∧
        ∀ j id2, pos < j → stack.get? j = some id2 → isOpenMatch nodes nm id2 = false := by
  intro stack
  induction stack with
  | nil => intro pos h; simp [lastOpenMatchPos] at h
  | cons x xs ih =>
    intro pos h
    unfold lastOpenMatchPos at h
    cases hx : lastOpenMatchPos nodes nm xs with
    | some j =>
      rw [hx] at h
      simp only [Option.some.injEq] at h
      subst h
      rcases ih j hx with ⟨id, hget, hmatch, habove⟩
      refine ⟨id, by simpa using hget, hmatch, ?_⟩
      intro k id2 hk hget2
      cases k with
      | zero => omega
      | succ m =>
        simp only [List.get?_cons_succ] at hget2
        exact habove m id2 (by omega) hget2
    | none =>
      rw [hx] at h
      by_cases hm : isOpenMatch nodes nm x = true
      · simp only [hm, if_true, Option.some.injEq] at h
        subst h
        refine ⟨x, rfl, hm, ?_⟩
        intro k id2 hk hget2
        cases k with
        | zero => omega
        | succ m =>
          simp only [List.get?_cons_succ] at hget2
          exact lastOpenMatchPos_none nodes nm xs hx id2 (List.get?_mem hget2)
      · simp [hm] at h

/-! ## Claims about the report assembler -/

/-- **C6.** Time-base resolution of the Report Assembler: with both an
external anchor `b` and a first timestamp `f`, the base epoch is `b - f` and
the record's absolute start `base + first` lands exactly on the anchor;
otherwise (`bs` or `fo` absent) the base is `now - max 0 duration`, where the
duration is `last - first` when both bounds exist and `0` when either is
missing. -/
theorem claim_C6_time_base (b now : Int) (f l : Nat) (bs : Option Int)
    (fo lo fo2 lo2 : Option Nat)
    (hfb : bs = none ∨ fo = none) (hd : fo2 = none ∨ lo2 = none) :
    base_epoch_ms (some b) (some f) lo now = b - (f : Int) ∧
    record_start_ms (base_epoch_ms (some b) (some f) lo now) (some f) now = b ∧
    base_epoch_ms bs fo lo now = now - max 0 (duration_ms fo lo) ∧
    duration_ms (some f) (some l) = (l : Int) - (f : Int) ∧
    duration_ms fo2 lo2 = 0 := by
  refine ⟨rfl, ?_, ?_, rfl, ?_⟩
  · show b - (f : Int) + (f : Int) = b
    omega
  · rcases hfb with h | h
    · subst h
      cases fo <;> rfl
    · subst h
      cases bs <;> rfl
  · rcases hd with h | h
    · subst h; cases lo2 <;> rfl
    · subst h; cases fo2 <;> rfl

theorem claim_C6_time_base_witness :
    base_epoch_ms (some 100) (some 30) (some 50) 7 = 70 ∧
    record_start_ms (base_epoch_ms (some 100) (some 30) (some 50) 7) (some 30) 7 = 100 ∧
    base_epoch_ms none (some 30) (some 50) 7 = 7 - max 0 (duration_ms (some 30) (some 50)) ∧
    duration_ms (some 30) (some 50) = (50 : Int) - (30 : Int) ∧
    duration_ms none (some 50) = 0 :=
  claim_C6_time_base 100 7 30 50 none (some 30) (some 50) none (some 50)
    (Or.inl rfl) (Or.inl rfl)

/-- **C7.** The timestamp shift of `StepNode.to_allure` is monotone in the
relative timestamp, for any fixed base epoch and first timestamp; concretely
it is `base + max 0 (v - first)` when the first timestamp is known and
`base + v` otherwise. -/
theorem claim_C7_shift_monotone (base : Int) (first : Option Nat) (f t1 t2 : Nat)
    (h : t1 ≤ t2) :
    shift base first (some t1) ≤ shift base first (some t2) ∧
    shift base (some f) (some t1) = base + max 0 ((t1 : Int) - (f : Int)) ∧
    shift base none (some t1) = base + (t1 : Int) := by
  refine ⟨?_, rfl, rfl⟩
  cases first with
  | none =>
    show base + (t1 : Int) ≤ base + (t2 : Int)
    omega
  | some f0 =>
    show base + max 0 ((t1 : Int) - (f0 : Int)) ≤ base + max 0 ((t2 : Int) - (f0 : Int))
    have : ((t1 : Int) - (f0 : Int)) ≤ ((t2 : Int) - (f0 : Int)) := by omega
    exact add_le_add_left (max_le_max (le_refl 0) this) base

theorem claim_C7_shift_monotone_witness :
    shift 10 (some 2) (some 3) ≤ shift 10 (some 2) (some 7) ∧
    shift 10 (some 2) (some 3) = 10 + max 0 ((3 : Int) - (2 : Int)) ∧
    shift 10 none (some 3) = 10 + (3 : Int) :=
  claim_C7_shift_monotone 10 (some 2) 2 3 7 (by decide)

/-- **C9.** History-key derivation is a deterministic function of the
`(suite, test, discriminator)` triple: with `uuid5(NAMESPACE_URL, ·)`
modelled as a fixed function `h` of the seed, identical triples yield the
identical key, and the key is exactly `h` applied to the concatenated
seed. -/
theorem claim_C9_history_key_deterministic (h : String → String)
    (s1 t1 s2 t2 : String) (d1 d2 : Option String)
    (he : s1 = s2 ∧ t1 = t2 ∧ d1 = d2) :
    history_id h s1 t1 d1 = history_id h s2 t2 d2 ∧
    history_id h s1 t1 d1 = h (mk_hist_seed s1 t1 d1) := by
  obtain ⟨h1, h2, h3⟩ := he
  subst h1; subst h2; subst h3
  exact ⟨rfl, rfl⟩

theorem claim_C9_history_key_deterministic_witness :
    history_id (fun s => s) "Wikipedia / Android" "Search" (some "deviceX")
      = history_id (fun s => s) "Wikipedia / Android" "Search" (some "deviceX") ∧
    history_id (fun s => s) "Wikipedia / Android" "Search" (some "deviceX")
      = (fun s : String => s) (mk_hist_seed "Wikipedia / Android" "Search" (some "deviceX")) :=
  claim_C9_history_key_deterministic (fun s => s) "Wikipedia / Android" "Search"
    "Wikipedia / Android" "Search" (some "deviceX") (some "deviceX") ⟨rfl, rfl, rfl⟩

/-! ## Claim C2: last_timestamp -/

/-- **C2, counterexample.** The claim says a sequence containing only Start
events leaves `last_timestamp` undefined, the forced-closure pass never
touching it.  In the code the forced-closure pass *does* fold each
force-closed node's `stop` (its `start`) into `last_ts` (source lines
174–175): a single Start event at 5 ms yields `last_timestamp = some 5`. -/
theorem claim_C2_counterexample :
    (buildFromEvents [{ ts := some 5, name := "A", kind := EvKind.start }]).2.2 = some 5 ∧
    (buildFromEvents [{ ts := some 5, name := "A", kind := EvKind.start }]).2.2 ≠ none := by
  exact ⟨rfl, by decide⟩

lemma noteFirst_last (s : BState) (ts : Option Nat) : (noteFirst s ts).last = s.last := by
  unfold noteFirst; split <;> rfl

lemma noteFirst_nodes (s : BState) (ts : Option Nat) : (noteFirst s ts).nodes = s.nodes := by
  unfold noteFirst; split <;> rfl

lemma noteFirst_stack (s : BState) (ts : Option Nat) : (noteFirst s ts).stack = s.stack := by
  unfold noteFirst; split <;> rfl

lemma noteFirst_roots (s : BState) (ts : Option Nat) : (noteFirst s ts).roots = s.roots := by
  unfold noteFirst; split <;> rfl

lemma pushStart_last (s : BState) (nm : String) (ts : Option Nat) :
    (pushStart s nm ts).last = s.last := by
  unfold pushStart
  cases s.stack.getLast? <;> rfl

lemma procClose_last (s : BState) (nm : String) (ts : Option Nat) (isFail : Bool) :
    (procClose s nm ts isFail).last = updLast s.last ts := by
  unfold procClose
  cases lastOpenMatchPos s.nodes nm s.stack <;> rfl

lemma updLast_some (l : Option Nat) (t : Nat) : updLast l (some t) = some (max (l.getD t) t) := by
  cases l with
  | none => simp [updLast]
  | some m => simp [updLast]

/-- `markForcedClosed` never changes `start`, so arena reads of `start` are
stable across the forced-closure pass. -/
lemma nodeAt_modifyAt_mark_start (nodes : List NodeData) (j i : Nat) :
    (nodeAt (modifyAt j markForcedClosed nodes) i).start = (nodeAt nodes i).start := by
  unfold nodeAt
  rw [get?_modifyAt]
  by_cases h : i = j
  · subst h
    cases hg : nodes.get? i with
    | none => simp
    | some nd => simp [markForcedClosed]
  · simp [h]

lemma forceCloseRun_last_mono :
    ∀ (ids : List Nat) (nodes : List NodeData) (last : Option Nat) (m : Nat),
      last = some m → ∃ m', (forceCloseRun nodes last ids).2 = some m' ∧ m ≤ m' := by
  intro ids
  induction ids with
  | nil => intro nodes last m h; exact ⟨m, by simp [forceCloseRun, h], le_refl m⟩
  | cons j rest ih =>
    intro nodes last m h
    subst h
    show ∃ m', (forceCloseRun (modifyAt j markForcedClosed nodes)
      (updLast (some m) (nodeAt nodes j).start) rest).2 = some m' ∧ m ≤ m'
    cases hst : (nodeAt nodes j).start with
    | none =>
      rcases ih _ (updLast (some m) none) m rfl with ⟨m', hm', hle⟩
      exact ⟨m', hm', hle⟩
    | some t =>
      rcases ih (modifyAt j markForcedClosed nodes) (updLast (some m) (some t))
        (max m t) (by rw [updLast_some]; simp) with ⟨m', hm', hle⟩
      exact ⟨m', hm', le_trans (le_max_left m t) hle⟩

lemma forceCloseRun_last_of_mem :
    ∀ (ids : List Nat) (nodes : List NodeData) (last : Option Nat) (id t : Nat),
      id ∈ ids → (nodeAt nodes id).start = some t →
      ∃ m, (forceCloseRun nodes last ids).2 = some m ∧ t ≤ m := by
  intro ids
  induction ids with
  | nil => intro _ _ _ _ h; simp at h
  | cons j rest ih =>
    intro nodes last id t hid hst
    rcases List.mem_cons.1 hid with h | h
    · subst h
      have hstep : forceCloseRun nodes last (id :: rest)
          = forceCloseRun (modifyAt id markForcedClosed nodes)
              (updLast last (nodeAt nodes id).start) rest := rfl
      rw [hstep, hst]
      rcases forceCloseRun_last_mono rest (modifyAt id markForcedClosed nodes)
        (updLast last (some t)) (max (last.getD t) t) (updLast_some last t)
        with ⟨m', hm', hle⟩
      exact ⟨m', hm', le_trans (le_max_right _ t) hle⟩
    · have hst' : (nodeAt (modifyAt j markForcedClosed nodes) id).start = some t := by
        rw [nodeAt_modifyAt_mark_start]; exact hst
      exact ih (modifyAt j markForcedClosed nodes) _ id t h hst'

/-- **C2, amended.** `last_timestamp` is untouched by Start events, updated
to the max of its current value and the event timestamp by every processed
close event (matched or orphaned; a close without a timestamp leaves it
unchanged), and *also* updated by the end-of-stream forced-closure pass,
which folds each force-closed node's `stop` (its `start`) into it — so a
sequence of only Start events ends with a defined `last_timestamp`. -/
theorem claim_C2_amended (s : BState) (nm : String) (ts : Option Nat) (t tv id : Nat)
    (hid : id ∈ s.stack) (hst : (nodeAt s.nodes id).start = some tv) :
    (procEvent s { ts := ts, name := nm, kind := EvKind.start }).last = s.last ∧
    (procEvent s { ts := some t, name := nm, kind := EvKind.complete }).last
      = some (max (s.last.getD t) t) ∧
    (procEvent s { ts := some t, name := nm, kind := EvKind.fail }).last
      = some (max (s.last.getD t) t) ∧
    (procEvent s { ts := none, name := nm, kind := EvKind.complete }).last = s.last ∧
    (∃ m, (finalizeStack s).last = some m ∧ tv ≤ m) := by
  refine ⟨?_, ?_, ?_, ?_, ?_⟩
  · show (pushStart (noteFirst s ts) nm ts).last = s.last
    rw [pushStart_last, noteFirst_last]
  · show (procClose (noteFirst s (some t)) nm (some t) false).last = _
    rw [procClose_last, noteFirst_last, updLast_some]
  · show (procClose (noteFirst s (some t)) nm (some t) true).last = _
    rw [procClose_last, noteFirst_last, updLast_some]
  · show (procClose (noteFirst s none) nm none false).last = s.last
    rw [procClose_last, noteFirst_last]; rfl
  · show ∃ m, (forceCloseRun s.nodes s.last s.stack.reverse).2 = some m ∧ tv ≤ m
    exact forceCloseRun_last_of_mem s.stack.reverse s.nodes s.last id tv
      (List.mem_reverse.2 hid) hst

/-- **C1.** Processing a Complete/Fail event whose open-stack search succeeds
at position `pos`: that position holds the nearest still-open node with the
event's name (no higher stack position matches), the node is removed from the
stack (positions below and above survive in order), its `stop` is set to the
event timestamp — falling back to its own `start` when the event carries
none — and its status to `"passed"` for Complete and `"failed"` for Fail,
while every other arena entry is untouched.  The last two conjuncts tie the
statement to the event loop: Complete/Fail events are processed exactly by
this close routine. -/
theorem claim_C1_close_nearest_open (s : BState) (nm : String) (ts : Option Nat)
    (isFail : Bool) (pos : Nat)
    (h : lastOpenMatchPos s.nodes nm s.stack = some pos) :
    ∃ id nd, s.stack.get? pos = some id ∧ s.nodes.get? id = some nd ∧
      nd.name = nm ∧ nd.stop = none ∧
      (∀ j id2, pos < j → s.stack.get? j = some id2 →
        isOpenMatch s.nodes nm id2 = false) ∧
      (procClose s nm ts isFail).stack = s.stack.take pos ++ s.stack.drop (pos + 1) ∧
      (procClose s nm ts isFail).nodes.get? id
        = some { nd with stop := if ts.isSome then ts else nd.start,
                         status := closeStatus isFail } ∧
      (∀ i, i ≠ id → (procClose s nm ts isFail).nodes.get? i = s.nodes.get? i) ∧
      procEvent s { ts := ts, name := nm, kind := EvKind.complete }
        = procClose (noteFirst s ts) nm ts false ∧
      procEvent s { ts := ts, name := nm, kind := EvKind.fail }
        = procClose (noteFirst s ts) nm ts true := by
  rcases lastOpenMatchPos_spec s.nodes nm s.stack pos h with ⟨id, hget, hmatch, habove⟩
  rcases (isOpenMatch_iff s.nodes nm id).1 hmatch with ⟨nd, hnd, hname, hstop⟩
  have hred : procClose s nm ts isFail
      = { s with
            nodes := modifyAt id
              (fun n => { n with stop := if ts.isSome then ts else n.start,
                                 status := closeStatus isFail }) s.nodes,
            stack := s.stack.eraseIdx pos,
            last := updLast s.last ts } := by
    unfold procClose
    simp only [h, hget]
    rfl
  refine ⟨id, nd, hget, hnd, hname, hstop, habove, ?_, ?_, ?_, rfl, rfl⟩
  · rw [hred]
    exact List.eraseIdx_eq_take_drop_succ s.stack pos
  · rw [hred]
    show (modifyAt id _ s.nodes).get? id = _
    rw [get?_modifyAt, if_pos rfl, hnd]
    rfl
  · intro i hi
    rw [hred]
    show (modifyAt id _ s.nodes).get? i = s.nodes.get? i
    rw [get?_modifyAt, if_neg hi]

theorem claim_C1_close_nearest_open_witness :
    ∃ id nd, wOpenState.stack.get? 0 = some id ∧ wOpenState.nodes.get? id = some nd ∧
      nd.name = "A" ∧ nd.stop = none ∧
      (∀ j id2, 0 < j → wOpenState.stack.get? j = some id2 →
        isOpenMatch wOpenState.nodes "A" id2 = false) ∧
      (procClose wOpenState "A" (some 2) false).stack
        = wOpenState.stack.take 0 ++ wOpenState.stack.drop 1 ∧
      (procClose wOpenState "A" (some 2) false).nodes.get? id
        = some { nd with stop := if (some 2 : Option Nat).isSome then some 2 else nd.start,
                         status := closeStatus false } ∧
      (∀ i, i ≠ id →
        (procClose wOpenState "A" (some 2) false).nodes.get? i
          = wOpenState.nodes.get? i) ∧
      procEvent wOpenState { ts := some 2, name := "A", kind := EvKind.complete }
        = procClose (noteFirst wOpenState (some 2)) "A" (some 2) false ∧
      procEvent wOpenState { ts := some 2, name := "A", kind := EvKind.fail }
        = procClose (noteFirst wOpenState (some 2)) "A" (some 2) true :=
  claim_C1_close_nearest_open wOpenState "A" (some 2) false 0 rfl

/-- **C4.** A Complete/Fail event whose open-stack search fails (no still-open
node with its name) appends exactly one synthetic node: the roots gain
exactly the new node's index at the end, the arena gains exactly the new node
with `start = stop =` the event's timestamp and status `"passed"`/`"failed"`
according to the event, the stack is untouched, every pre-existing arena
entry is untouched, and (given in-range children, as maintained by the
builder) the new node is a child of no node — it sits at root level only. -/
theorem claim_C4_orphan_close (s : BState) (nm : String) (ts : Option Nat) (isFail : Bool)
    (h : lastOpenMatchPos s.nodes nm s.stack = none)
    (hv : ∀ nd ∈ s.nodes, ∀ c ∈ nd.children, c < s.nodes.length) :
    (∀ id ∈ s.stack, isOpenMatch s.nodes nm id = false) ∧
    (procClose s nm ts isFail).roots = s.roots ++ [s.nodes.length] ∧
    (procClose s nm ts isFail).nodes
      = s.nodes ++ [{ name := nm, start := ts, stop := ts,
                      status := closeStatus isFail, children := [] }] ∧
    (procClose s nm ts isFail).stack = s.stack ∧
    (∀ i, i < s.nodes.length →
      (procClose s nm ts isFail).nodes.get? i = s.nodes.get? i) ∧
    (∀ nd ∈ (procClose s nm ts isFail).nodes, s.nodes.length ∉ nd.children) := by
  have hred : procClose s nm ts isFail
      = { s with
            nodes := s.nodes ++ [{ name := nm, start := ts, stop := ts,
                                   status := closeStatus isFail, children := [] }],
            roots := s.roots ++ [s.nodes.length],
            last := updLast s.last ts } := by
    unfold procClose
    rw [h]
  refine ⟨lastOpenMatchPos_none s.nodes nm s.stack h, ?_, ?_, ?_, ?_, ?_⟩
  · rw [hred]
  · rw [hred]
  · rw [hred]
  · intro i hi
    rw [hred]
    exact List.get?_append hi
  · intro nd hnd
    rw [hred] at hnd
    rcases List.mem_append.1 hnd with h' | h'
    · intro hc
      exact absurd (hv nd h' _ hc) (lt_irrefl _)
    · rcases List.mem_singleton.1 h' with rfl
      simp

theorem claim_C4_orphan_close_witness :
    (∀ id ∈ wOpenState.stack, isOpenMatch wOpenState.nodes "B" id = false) ∧
    (procClose wOpenState "B" (some 7) true).roots
      = wOpenState.roots ++ [wOpenState.nodes.length] ∧
    (procClose wOpenState "B" (some 7) true).nodes
      = wOpenState.nodes ++ [{ name := "B", start := some 7, stop := some 7,
                               status := closeStatus true, children := [] }] ∧
    (procClose wOpenState "B" (some 7) true).stack = wOpenState.stack ∧
    (∀ i, i < wOpenState.nodes.length →
      (procClose wOpenState "B" (some 7) true).nodes.get? i
        = wOpenState.nodes.get? i) ∧
    (∀ nd ∈ (procClose wOpenState "B" (some 7) true).nodes,
      wOpenState.nodes.length ∉ nd.children) :=
  claim_C4_orphan_close wOpenState "B" (some 7) true rfl (by decide)

/-- A node has a failed descendant iff it is failed itself or one of its
children has one. -/
lemma hasFailed_iff (n : StepNode) :
    HasFailed n ↔ n.status = "failed" ∨ ∃ c ∈ n.children, HasFailed c := by
  constructor
  · intro h
    cases h with
    | here _ hs => exact Or.inl hs
    | child _ c hc hf => exact Or.inr ⟨c, hc, hf⟩
  · intro h
    rcases h with h | ⟨c, hc, hf⟩
    · exact HasFailed.here n h
    · exact HasFailed.child n c hc hf

/-- `any_failed` agrees with the existence of a failed node at any depth,
provided every status is one of the two terminal strings. -/
lemma any_failed_iff :
    ∀ (l : List StepNode), allForest statusValid l = true →
      (any_failed l = true ↔ ∃ n ∈ l, HasFailed n)
  | [], _ => by simp [any_failed]
  | StepNode.mk nm s t st cs :: rest, hv => by
    have hval : statusValid (StepNode.mk nm s t st cs) = true ∧
        allForest statusValid cs = true ∧ allForest statusValid rest = true := by
      have := hv
      rw [allForest] at this
      simpa [Bool.and_eq_true, and_assoc] using this
    obtain ⟨hn, hc, hr⟩ := hval
    have ihc := any_failed_iff cs hc
    have ihr := any_failed_iff rest hr
    have hst : st = "passed" ∨ st = "failed" := by
      simpa [statusValid, StepNode.status] using hn
    rw [List.exists_mem_cons_iff, hasFailed_iff]
    by_cases hpass : st = "passed"
    · have hb : any_failed (StepNode.mk nm s t st cs :: rest)
          = (!cs.isEmpty && any_failed cs || any_failed rest) := by
        rw [any_failed]
        simp [hpass]
      rw [hb]
      have hie : cs.isEmpty = false ↔ cs ≠ [] := by cases cs <;> simp
      simp only [Bool.or_eq_true, Bool.and_eq_true, Bool.not_eq_true', hie, ihc, ihr]
      constructor
      · rintro (⟨_, h⟩ | h)
        · exact Or.inl (Or.inr h)
        · exact Or.inr h
      · rintro (h | h)
        · rcases h with h | ⟨c, hcm, hcf⟩
          · simp [StepNode.status, hpass] at h
          · exact Or.inl ⟨List.ne_nil_of_mem hcm, ⟨c, hcm, hcf⟩⟩
        · exact Or.inr h
    · have hfail : st = "failed" := hst.resolve_left hpass
      have hb : any_failed (StepNode.mk nm s t st cs :: rest) = true := by
        rw [any_failed]
        simp [hfail]
      rw [hb]
      simp [StepNode.status, hfail]

/-- A forest of all-passed nodes makes `any_failed` false. -/
lemma any_failed_false_of_passed :
    ∀ (l : List StepNode), allForest isPassedB l = true → any_failed l = false
  | [], _ => by simp [any_failed]
  | StepNode.mk nm s t st cs :: rest, hv => by
    have hval : isPassedB (StepNode.mk nm s t st cs) = true ∧
        allForest isPassedB cs = true ∧ allForest isPassedB rest = true := by
      have := hv
      rw [allForest] at this
      simpa [Bool.and_eq_true, and_assoc] using this
    obtain ⟨hn, hc, hr⟩ := hval
    have hp : st = "passed" := by simpa [isPassedB, StepNode.status] using hn
    rw [any_failed]
    simp [hp, any_failed_false_of_passed cs hc, any_failed_false_of_passed rest hr]

/-- **C5.** The Report Record's overall status is `"failed"` iff some node at
any depth of the forest has status `"failed"` (under the data-model invariant
that every status is one of the two terminal strings); a forest whose nodes
are all `"passed"` yields overall status `"passed"`. -/
theorem claim_C5_overall_status (roots : List StepNode)
    (hv : allForest statusValid roots = true) :
    (overall_status roots = "failed" ↔ ∃ n ∈ roots, HasFailed n) ∧
    (allForest isPassedB roots = true → overall_status roots = "passed") := by
  have hiff := any_failed_iff roots hv
  constructor
  · unfold overall_status
    by_cases h : any_failed roots = true
    · rw [if_pos h]
      exact ⟨fun _ => hiff.1 h, fun _ => rfl⟩
    · rw [if_neg h]
      constructor
      · intro hcontra
        exact absurd hcontra (by decide)
      · intro hex
        exact absurd (hiff.2 hex) h
  · intro hp
    unfold overall_status
    rw [any_failed_false_of_passed roots hp]
    rfl

theorem claim_C5_overall_status_witness :
    (overall_status [StepNode.mk "A" (some 1) (some 2) "passed"
        [StepNode.mk "B" (some 1) (some 2) "failed" []]] = "failed"
      ↔ ∃ n ∈ [StepNode.mk "A" (some 1) (some 2) "passed"
          [StepNode.mk "B" (some 1) (some 2) "failed" []]], HasFailed n) ∧
    (allForest isPassedB [StepNode.mk "A" (some 1) (some 2) "passed"
        [StepNode.mk "B" (some 1) (some 2) "failed" []]] = true →
      overall_status [StepNode.mk "A" (some 1) (some 2) "passed"
        [StepNode.mk "B" (some 1) (some 2) "failed" []]] = "passed") :=
  claim_C5_overall_status
    [StepNode.mk "A" (some 1) (some 2) "passed"
      [StepNode.mk "B" (some 1) (some 2) "failed" []]]
    (by simp [allForest, statusValid, StepNode.status])

/-- The twelve characters captured by the time group of `LINE_RE` always
re-match `TIME_RE`: the numeric conversion succeeds. -/
lemma matchTime_parse (cs t r : List Char) (h : matchTime cs = some (t, r)) :
    (parse_hms_ms t).isSome = true := by
  unfold matchTime at h
  split at h
  case _ h1 h2 c1 m1 m2 c2 s1 s2 p x1 x2 x3 rest =>
    split at h
    case isTrue hcond =>
      simp only [Option.some.injEq, Prod.mk.injEq] at h
      obtain ⟨ht, _⟩ := h
      subst ht
      simp only [Bool.and_eq_true] at hcond
      unfold parse_hms_ms
      simp [hcond]
    case isFalse => exact absurd h (by simp)
  case _ => exact absurd h (by simp)

/-- The time group handed to `parse_hms_ms` by a successful `LINE_RE` match
is the one returned by `matchTime`. -/
lemma lineMatch_time (line t n : List Char) (k : EvKind)
    (h : lineMatch line = some (t, n, k)) : ∃ r, matchTime line = some (t, r) := by
  unfold lineMatch at h
  split at h
  next => exact absurd h (by simp)
  next tc r1 heq =>
    split at h
    next nm k1 heq2 =>
      simp only [Option.some.injEq, Prod.mk.injEq] at h
      exact ⟨r1, by rw [heq, h.1]⟩
    next => exact absurd h (by simp)

/-- Every event emitted by the line parser carries a timestamp. -/
lemma parseLine_ts_isSome (line : List Char) (e : Event)
    (h : parseLine line = some e) : e.ts.isSome = true := by
  unfold parseLine at h
  cases hlm : lineMatch line with
  | none => rw [hlm] at h; exact absurd h (by simp)
  | some tnk =>
    obtain ⟨tc, nm, k⟩ := tnk
    rw [hlm] at h
    simp only [Option.some.injEq] at h
    subst h
    show (parse_hms_ms tc).isSome = true
    rcases lineMatch_time line tc nm k hlm with ⟨r, hr⟩
    exact matchTime_parse line tc r hr

/-- **C10.** For every line matched by the event-line pattern, the captured
`HH:MM:SS.mmm` group re-matches the time pattern, so `parse_hms_ms` never
returns `none` for a recognized line; consequently every event emitted by
the line parser carries a defined timestamp (non-negative by construction,
being a `Nat` count of milliseconds since midnight) — the missing-timestamp
branches of the builder are unreachable for recognized lines. -/
theorem claim_C10_recognized_lines_have_timestamps
    (line1 t n : List Char) (k : EvKind) (line2 : List Char) (e : Event)
    (h1 : lineMatch line1 = some (t, n, k)) (h2 : parseLine line2 = some e) :
    (parse_hms_ms t).isSome = true ∧ e.ts.isSome = true ∧ ∃ v, e.ts = some v := by
  have ha : (parse_hms_ms t).isSome = true := by
    rcases lineMatch_time line1 t n k h1 with ⟨r, hr⟩
    exact matchTime_parse line1 t r hr
  have hb := parseLine_ts_isSome line2 e h2
  exact ⟨ha, hb, Option.isSome_iff_exists.1 hb⟩

theorem claim_C10_recognized_lines_have_timestamps_witness :
    (parse_hms_ms ("00:00:01.000".toList)).isSome = true ∧
    ({ ts := some 1000, name := "a", kind := EvKind.start } : Event).ts.isSome = true ∧
    ∃ v, ({ ts := some 1000, name := "a", kind := EvKind.start } : Event).ts = some v :=
  claim_C10_recognized_lines_have_timestamps
    ("00:00:01.000 [ I] TestSuiteInteractor.invoke: a RUNNING".toList)
    ("00:00:01.000".toList) ("a".toList) EvKind.start
    ("00:00:01.000 [ I] TestSuiteInteractor.invoke: a RUNNING".toList)
    { ts := some 1000, name := "a", kind := EvKind.start }
    rfl rfl

/-! ## Claim C3: invariant preservation through the builder -/

lemma inv_initState : Inv initState := by
  refine ⟨?_, ?_, ?_, ?_, ?_, ?_⟩ <;> simp [initState]

lemma get?_some_lt {α : Type} {l : List α} {n : Nat} {a : α} (h : l.get? n = some a) :
    n < l.length :=
  (List.get?_eq_some.1 h).1

lemma inv_pushStart (s : BState) (nm : String) (ts : Option Nat)
    (hts : ts.isSome = true) (hI : Inv s) : Inv (pushStart s nm ts) := by
  obtain ⟨hr, hs, hc, hst, hcl, hso⟩ := hI
  unfold pushStart
  cases hL : s.stack.getLast? with
  | none =>
    refine ⟨?_, ?_, ?_, ?_, ?_, ?_⟩ <;> simp only []
    · intro i hi
      rcases List.mem_append.1 hi with h | h
      · have := hr i h; simp; omega
      · rcases List.mem_singleton.1 h with rfl; simp
    · intro i hi
      rcases List.mem_append.1 hi with h | h
      · have := hs i h; simp; omega
      · rcases List.mem_singleton.1 h with rfl; simp
    · intro nd hnd c hcm
      rcases List.mem_append.1 hnd with h | h
      · have := hc nd h c hcm; simp; omega
      · rcases List.mem_singleton.1 h with rfl; simp at hcm
    · intro nd hnd
      rcases List.mem_append.1 hnd with h | h
      · exact hst nd h
      · rcases List.mem_singleton.1 h with rfl; exact hts
    · intro i nd hnd hni
      have hni1 : i ∉ s.stack := fun h => hni (List.mem_append.2 (Or.inl h))
      have hni2 : i ≠ s.nodes.length := fun h =>
        hni (List.mem_append.2 (Or.inr (List.mem_singleton.2 h)))
      by_cases hlt : i < s.nodes.length
      · rw [List.get?_append hlt] at hnd
        exact hcl i nd hnd hni1
      · have hlen := get?_some_lt hnd
        rw [List.length_append] at hlen
        simp at hlen
        have : i = s.nodes.length := by omega
        rw [this, List.get?_concat_length] at hnd
        cases hnd
        exact absurd this hni2
    · intro nd hnd
      rcases List.mem_append.1 hnd with h | h
      · exact hso nd h
      · rcases List.mem_singleton.1 h with rfl; exact Or.inl rfl
  | some pid =>
    refine ⟨?_, ?_, ?_, ?_, ?_, ?_⟩ <;> simp only []
    · intro i hi
      have := hr i hi
      simp [length_modifyAt]; omega
    · intro i hi
      rcases List.mem_append.1 hi with h | h
      · have := hs i h; simp [length_modifyAt]; omega
      · rcases List.mem_singleton.1 h with rfl; simp [length_modifyAt]
    · intro nd hnd c hcm
      rcases List.mem_append.1 hnd with h | h
      · rcases mem_modifyAt _ pid s.nodes nd h with h' | ⟨x, hx, rfl⟩
        · have := hc nd h' c hcm; simp [length_modifyAt]; omega
        · simp only [] at hcm
          rcases List.mem_append.1 hcm with h'' | h''
          · have := hc x (List.get?_mem hx) c h''; simp [length_modifyAt]; omega
          · rcases List.mem_singleton.1 h'' with rfl; simp [length_modifyAt]
      · rcases List.mem_singleton.1 h with rfl; simp at hcm
    · intro nd hnd
      rcases List.mem_append.1 hnd with h | h
      · rcases mem_modifyAt _ pid s.nodes nd h with h' | ⟨x, hx, rfl⟩
        · exact hst nd h'
        · exact hst x (List.get?_mem hx)
      · rcases List.mem_singleton.1 h with rfl; exact hts
    · intro i nd hnd hni
      have hni1 : i ∉ s.stack := fun h => hni (List.mem_append.2 (Or.inl h))
      have hni2 : i ≠ s.nodes.length := fun h =>
        hni (List.mem_append.2 (Or.inr (List.mem_singleton.2 h)))
      by_cases hlt : i < s.nodes.length
      · rw [List.get?_append (by rw [length_modifyAt]; exact hlt)] at hnd
        rw [get?_modifyAt] at hnd
        by_cases hip : i = pid
        · rw [if_pos hip] at hnd
          cases hg : s.nodes.get? pid with
          | none => rw [hg] at hnd; simp at hnd
          | some x =>
            rw [hg] at hnd
            simp only [Option.map_some'] at hnd
            cases hnd
            exact hcl pid x hg (hip ▸ hni1)
        · rw [if_neg hip] at hnd
          exact hcl i nd hnd hni1
      · have hlen := get?_some_lt hnd
        simp [length_modifyAt] at hlen
        have : i = s.nodes.length := by omega
        exact absurd this hni2
    · intro nd hnd
      rcases List.mem_append.1 hnd with h | h
      · rcases mem_modifyAt _ pid s.nodes nd h with h' | ⟨x, hx, rfl⟩
        · exact hso nd h'
        · exact hso x (List.get?_mem hx)
      · rcases List.mem_singleton.1 h with rfl; exact Or.inl rfl

lemma inv_procClose (s : BState) (nm : String) (ts : Option Nat) (isFail : Bool)
    (hts : ts.isSome = true) (hI : Inv s) : Inv (procClose s nm ts isFail) := by
  obtain ⟨hr, hs, hc, hst, hcl, hso⟩ := hI
  unfold procClose
  cases hM : lastOpenMatchPos s.nodes nm s.stack with
  | none =>
    refine ⟨?_, ?_, ?_, ?_, ?_, ?_⟩ <;> simp only []
    · intro i hi
      rcases List.mem_append.1 hi with h | h
      · have := hr i h; simp; omega
      · rcases List.mem_singleton.1 h with rfl; simp
    · intro i hi
      have := hs i hi; simp; omega
    · intro nd hnd c hcm
      rcases List.mem_append.1 hnd with h | h
      · have := hc nd h c hcm; simp; omega
      · rcases List.mem_singleton.1 h with rfl; simp at hcm
    · intro nd hnd
      rcases List.mem_append.1 hnd with h | h
      · exact hst nd h
      · rcases List.mem_singleton.1 h with rfl; exact hts
    · intro i nd hnd hni
      by_cases hlt : i < s.nodes.length
      · rw [List.get?_append hlt] at hnd
        exact hcl i nd hnd hni
      · have hlen := get?_some_lt hnd
        simp at hlen
        have hieq : i = s.nodes.length := by omega
        rw [hieq, List.get?_concat_length] at hnd
        cases hnd
        exact hts
    · intro nd hnd
      rcases List.mem_append.1 hnd with h | h
      · exact hso nd h
      · rcases List.mem_singleton.1 h with rfl
        cases isFail <;> simp [closeStatus]
  | some pos =>
    rcases lastOpenMatchPos_spec s.nodes nm s.stack pos hM with ⟨id, hget, hmatch, _⟩
    rcases (isOpenMatch_iff s.nodes nm id).1 hmatch with ⟨x0, hx0, _, _⟩
    refine ⟨?_, ?_, ?_, ?_, ?_, ?_⟩ <;> simp only [hget, Option.getD_some]
    · intro i hi
      have := hr i hi; simp [length_modifyAt]; omega
    · intro i hi
      have := hs i (mem_of_mem_eraseIdx hi)
      simp [length_modifyAt]; omega
    · intro nd hnd c hcm
      have hb : (modifyAt id
          (fun n => { n with stop := if ts.isSome = true then ts else n.start,
                             status := closeStatus isFail }) s.nodes).length
          = s.nodes.length := length_modifyAt _ _ _
      rw [hb]
      rcases mem_modifyAt _ id s.nodes nd hnd with h' | ⟨x, hx, rfl⟩
      · exact hc nd h' c hcm
      · exact hc x (List.get?_mem hx) c hcm
    · intro nd hnd
      rcases mem_modifyAt _ id s.nodes nd hnd with h' | ⟨x, hx, rfl⟩
      · exact hst nd h'
      · exact hst x (List.get?_mem hx)
    · intro i nd hnd hni
      rw [get?_modifyAt] at hnd
      by_cases hip : i = id
      · rw [if_pos hip] at hnd
        cases hg : s.nodes.get? id with
        | none => rw [hg] at hnd; simp at hnd
        | some x =>
          rw [hg] at hnd
          simp only [Option.map_some'] at hnd
          cases hnd
          simp only []
          rw [if_pos hts]
          exact hts
      · rw [if_neg hip] at hnd
        have hni' : i ∉ s.stack := by
          intro hmem
          exact hni (mem_eraseIdx_of_ne hmem hget (by simpa using hip))
        exact hcl i nd hnd hni'
    · intro nd hnd
      rcases mem_modifyAt _ id s.nodes nd hnd with h' | ⟨x, hx, rfl⟩
      · exact hso nd h'
      · cases isFail <;> simp [closeStatus]

lemma inv_noteFirst (s : BState) (ts : Option Nat) (hI : Inv s) : Inv (noteFirst s ts) := by
  obtain ⟨hr, hs, hc, hst, hcl, hso⟩ := hI
  unfold noteFirst
  split
  · exact ⟨hr, hs, hc, hst, hcl, hso⟩
  · exact ⟨hr, hs, hc, hst, hcl, hso⟩

lemma inv_procEvent (s : BState) (e : Event) (hts : e.ts.isSome = true) (hI : Inv s) :
    Inv (procEvent s e) := by
  unfold procEvent
  cases e.kind with
  | start => exact inv_pushStart _ _ _ hts (inv_noteFirst s e.ts hI)
  | complete => exact inv_procClose _ _ _ _ hts (inv_noteFirst s e.ts hI)
  | fail => exact inv_procClose _ _ _ _ hts (inv_noteFirst s e.ts hI)

lemma inv_foldl :
    ∀ (events : List Event) (s : BState), Inv s →
      (∀ e ∈ events, e.ts.isSome = true) →
      Inv (events.foldl procEvent s) := by
  intro events
  induction events with
  | nil => intro s hI _; exact hI
  | cons e rest ih =>
    intro s hI hts
    exact ih (procEvent s e) (inv_procEvent s e (hts e (List.mem_cons_self e rest)) hI)
      (fun e' he' => hts e' (List.mem_cons_of_mem e he'))

lemma forceCloseRun_length :
    ∀ (ids : List Nat) (nodes : List NodeData) (last : Option Nat),
      (forceCloseRun nodes last ids).1.length = nodes.length := by
  intro ids
  induction ids with
  | nil => intro nodes last; rfl
  | cons j rest ih =>
    intro nodes last
    show (forceCloseRun (modifyAt j markForcedClosed nodes) _ rest).1.length = _
    rw [ih, length_modifyAt]

lemma forceCloseRun_get?_not_mem :
    ∀ (ids : List Nat) (nodes : List NodeData) (last : Option Nat) (i : Nat),
      i ∉ ids → (forceCloseRun nodes last ids).1.get? i = nodes.get? i := by
  intro ids
  induction ids with
  | nil => intro nodes last i _; rfl
  | cons j rest ih =>
    intro nodes last i hi
    have hij : i ≠ j := fun h => hi (h ▸ List.mem_cons_self j rest)
    have hir : i ∉ rest := fun h => hi (List.mem_cons_of_mem j h)
    show (forceCloseRun (modifyAt j markForcedClosed nodes) _ rest).1.get? i = _
    rw [ih _ _ i hir, get?_modifyAt, if_neg hij]

lemma forceCloseRun_get?_mem :
    ∀ (ids : List Nat) (nodes : List NodeData) (last : Option Nat) (i : Nat),
      i ∈ ids →
      (forceCloseRun nodes last ids).1.get? i = (nodes.get? i).map markForcedClosed := by
  intro ids
  induction ids with
  | nil => intro nodes last i h; simp at h
  | cons j rest ih =>
    intro nodes last i hi
    show (forceCloseRun (modifyAt j markForcedClosed nodes) _ rest).1.get? i = _
    by_cases hij : i = j
    · subst hij
      by_cases hir : i ∈ rest
      · rw [ih _ _ i hir, get?_modifyAt, if_pos rfl, Option.map_map]
        rfl
      · rw [forceCloseRun_get?_not_mem rest _ _ i hir, get?_modifyAt, if_pos rfl]
    · by_cases hir : i ∈ rest
      · rw [ih _ _ i hir, get?_modifyAt, if_neg hij]
      · exact absurd (List.mem_cons.1 hi) (by simp [hij, hir])

/-- After the end-of-stream pass: lengths and roots are unchanged, and every
node in the arena is terminal — `stop` defined, status one of the two
terminal strings — with in-range children. -/
lemma final_facts (s : BState) (hI : Inv s) :
    (finalizeStack s).nodes.length = s.nodes.length ∧
    (finalizeStack s).roots = s.roots ∧
    (∀ nd ∈ (finalizeStack s).nodes,
      nd.stop.isSome = true ∧ (nd.status = "passed" ∨ nd.status = "failed") ∧
        ∀ c ∈ nd.children, c < s.nodes.length) := by
  obtain ⟨hr, hs, hc, hst, hcl, hso⟩ := hI
  refine ⟨forceCloseRun_length _ _ _, rfl, ?_⟩
  intro nd hnd
  rcases List.get?_of_mem hnd with ⟨i, hi⟩
  have hi' : (forceCloseRun s.nodes s.last s.stack.reverse).1.get? i = some nd := hi
  by_cases him : i ∈ s.stack
  · rw [forceCloseRun_get?_mem s.stack.reverse s.nodes s.last i (List.mem_reverse.2 him)]
      at hi'
    cases hg : s.nodes.get? i with
    | none => rw [hg] at hi'; simp at hi'
    | some x =>
      rw [hg] at hi'
      simp only [Option.map_some'] at hi'
      cases hi'
      have hxm := List.get?_mem hg
      refine ⟨?_, Or.inr rfl, ?_⟩
      · show x.start.isSome = true
        exact hst x hxm
      · show ∀ c ∈ x.children, c < s.nodes.length
        exact hc x hxm
  · rw [forceCloseRun_get?_not_mem s.stack.reverse s.nodes s.last i
      (fun h => him (List.mem_reverse.1 h))] at hi'
    have hxm := List.get?_mem hi'
    exact ⟨hcl i nd hi' him, hso nd hxm, hc nd hxm⟩

lemma allForest_split (p : StepNode → Bool) (n : StepNode) (rest : List StepNode) :
    allForest p (n :: rest) = (allForest p [n] && allForest p rest) := by
  cases n with
  | mk nm s t st cs => simp [allForest]

/-- Any fabricated tree node over a terminal arena entry passes `stepOk`
(which never looks at children). -/
lemma stepOk_nodeAt (nodes : List NodeData)
    (hok : ∀ nd ∈ nodes, nd.stop.isSome = true ∧ (nd.status = "passed" ∨ nd.status = "failed"))
    (id : Nat) (hid : id < nodes.length) (cs : List StepNode) :
    stepOk (StepNode.mk (nodeAt nodes id).name (nodeAt nodes id).start
      (nodeAt nodes id).stop (nodeAt nodes id).status cs) = true := by
  obtain ⟨nd, hnd⟩ : ∃ nd, nodes.get? id = some nd :=
    ⟨nodes.get ⟨id, hid⟩, List.get?_eq_get hid⟩
  have h := hok nd (List.get?_mem hnd)
  have hat : nodeAt nodes id = nd := by unfold nodeAt; rw [hnd]; rfl
  rw [hat]
  rcases h with ⟨h1, h2⟩
  rcases h2 with h2 | h2 <;>
    simp [stepOk, StepNode.stop, StepNode.status, h1, h2]

/-- Materializing any list of in-range arena indices over a terminal arena
yields a forest of terminal nodes, for every fuel. -/
lemma allForest_toTree_all :
    ∀ (fuel : Nat) (nodes : List NodeData),
      (∀ nd ∈ nodes, nd.stop.isSome = true ∧ (nd.status = "passed" ∨ nd.status = "failed")) →
      (∀ nd ∈ nodes, ∀ c ∈ nd.children, c < nodes.length) →
      ∀ (ids : List Nat), (∀ i ∈ ids, i < nodes.length) →
        allForest stepOk (ids.map (toTree nodes fuel)) = true := by
  intro fuel
  induction fuel with
  | zero =>
    intro nodes hok hch ids
    induction ids with
    | nil => intro _; simp [allForest]
    | cons j rest ihr =>
      intro hlt
      rw [List.map_cons, allForest_split]
      have hj := hlt j (List.mem_cons_self j rest)
      have h1 : toTree nodes 0 j = StepNode.mk (nodeAt nodes j).name (nodeAt nodes j).start
          (nodeAt nodes j).stop (nodeAt nodes j).status [] := rfl
      rw [h1]
      have h2 : allForest stepOk [StepNode.mk (nodeAt nodes j).name (nodeAt nodes j).start
          (nodeAt nodes j).stop (nodeAt nodes j).status []] = true := by
        simp [allForest, stepOk_nodeAt nodes hok j hj]
      rw [h2, ihr (fun i hi => hlt i (List.mem_cons_of_mem j hi))]
      rfl
  | succ fuel ihf =>
    intro nodes hok hch ids
    induction ids with
    | nil => intro _; simp [allForest]
    | cons j rest ihr =>
      intro hlt
      rw [List.map_cons, allForest_split]
      have hj := hlt j (List.mem_cons_self j rest)
      have h1 : toTree nodes (fuel + 1) j = StepNode.mk (nodeAt nodes j).name
          (nodeAt nodes j).start (nodeAt nodes j).stop (nodeAt nodes j).status
          ((nodeAt nodes j).children.map (toTree nodes fuel)) := rfl
      rw [h1]
      have hchj : ∀ c ∈ (nodeAt nodes j).children, c < nodes.length := by
        obtain ⟨nd, hnd⟩ : ∃ nd, nodes.get? j = some nd :=
          ⟨nodes.get ⟨j, hj⟩, List.get?_eq_get hj⟩
        have hat : nodeAt nodes j = nd := by unfold nodeAt; rw [hnd]; rfl
        rw [hat]
        exact hch nd (List.get?_mem hnd)
      have hck := ihf nodes hok hch (nodeAt nodes j).children hchj
      have h2 : allForest stepOk [StepNode.mk (nodeAt nodes j).name (nodeAt nodes j).start
          (nodeAt nodes j).stop (nodeAt nodes j).status
          ((nodeAt nodes j).children.map (toTree nodes fuel))] = true := by
        simp [allForest, stepOk_nodeAt nodes hok j hj, hck]
      rw [h2, ihr (fun i hi => hlt i (List.mem_cons_of_mem j hi))]
      rfl

/-- Every node of the forest built from a sequence of timestamped events is
terminal. -/
lemma buildFromEvents_terminal (events : List Event)
    (hev : ∀ e ∈ events, e.ts.isSome = true) :
    allForest stepOk (buildFromEvents events).1 = true := by
  have hI := inv_foldl events initState inv_initState hev
  have hff := final_facts (events.foldl procEvent initState) hI
  obtain ⟨hlen, hroots, hterm⟩ := hff
  have hshow : (buildFromEvents events).1
      = (finalizeStack (events.foldl procEvent initState)).roots.map
          (toTree (finalizeStack (events.foldl procEvent initState)).nodes
            (finalizeStack (events.foldl procEvent initState)).nodes.length) := rfl
  rw [hshow]
  apply allForest_toTree_all
  · intro nd' hnd'
    exact ⟨(hterm nd' hnd').1, (hterm nd' hnd').2.1⟩
  · intro nd' hnd' c hc
    rw [hlen]
    exact (hterm nd' hnd').2.2 c hc
  · intro i hi
    rw [hroots] at hi
    rw [hlen]
    exact hI.roots_lt i hi

/-- **C3.** Every node of the forest returned by the Step Tree Builder is
terminal — `stop_ms` defined and status one of `"passed"`/`"failed"` — both
for every event sequence whose events carry timestamps (which, by C10, is
every sequence the line parser can produce) and for every raw log text.
Moreover (last conjunct) any node still on the open-stack when the stream
ends — a Start whose matching close never arrived — is force-closed to
exactly `stop := start`, `status := "failed"`. -/
theorem claim_C3_terminal_states (log : List Char) (events : List Event)
    (hev : ∀ e ∈ events, e.ts.isSome = true)
    (s : BState) (id : Nat) (nd : NodeData)
    (h1 : s.nodes.get? id = some nd) (h2 : id ∈ s.stack) :
    allForest stepOk (buildFromEvents events).1 = true ∧
    allForest stepOk (build_step_tree log).1 = true ∧
    (finalizeStack s).nodes.get? id = some (markForcedClosed nd) := by
  refine ⟨buildFromEvents_terminal events hev, ?_, ?_⟩
  · have hts : ∀ e ∈ parseLog log, e.ts.isSome = true := by
      intro e he
      rcases List.mem_filterMap.1 he with ⟨line, _, hpl⟩
      exact parseLine_ts_isSome line e hpl
    exact buildFromEvents_terminal (parseLog log) hts
  · show (forceCloseRun s.nodes s.last s.stack.reverse).1.get? id
      = some (markForcedClosed nd)
    rw [forceCloseRun_get?_mem s.stack.reverse s.nodes s.last id (List.mem_reverse.2 h2), h1]
    rfl

theorem claim_C3_terminal_states_witness :
    allForest stepOk (buildFromEvents
      [{ ts := some 5, name := "B", kind := EvKind.start }]).1 = true ∧
    allForest stepOk (build_step_tree
      ("00:00:01.000 [ I] TestSuiteInteractor.invoke: a RUNNING").toList).1 = true ∧
    (finalizeStack wOpenState).nodes.get? 0 = some (markForcedClosed nodeA) :=
  claim_C3_terminal_states
    ("00:00:01.000 [ I] TestSuiteInteractor.invoke: a RUNNING").toList
    [{ ts := some 5, name := "B", kind := EvKind.start }] (by decide)
    wOpenState 0 nodeA rfl (by decide)

/-- **C8, counterexample.** The claim says a log whose RUNNING/COMPLETED
lines carry the step name `"Open  menu\n  items"` parses into events named
`"Open menu items"`.  It cannot: `build_step_tree` splits the text into lines
first, the embedded newline cuts each event line in two, and neither piece
matches `LINE_RE` (the first lacks the trailing state word, the second the
leading timestamp) — the log produces no events at all. -/
theorem claim_C8_counterexample :
    parseLog ("00:00:01.000 [ INFO] maestro.cli.runner.TestSuiteInteractor.invoke: Open  menu\n  items RUNNING\n00:00:02.000 [ INFO] maestro.cli.runner.TestSuiteInteractor.invoke: Open  menu\n  items COMPLETED").toList
      = [] := by
  rfl

/-- **C8, amended.** Whitespace runs *inside a single line* (spaces, tabs)
collapse to single spaces and outer whitespace is trimmed: the step name
`"Open  menu\t items"` normalizes to `"Open menu items"` on both its RUNNING
and COMPLETED lines.  A step name containing an embedded newline is never
parsed, because splitting into lines happens first. -/
theorem claim_C8_amended :
    parseLog ("00:00:01.000 [ INFO] maestro.cli.runner.TestSuiteInteractor.invoke: Open  menu\t items RUNNING\n00:00:02.000 [ INFO] maestro.cli.runner.TestSuiteInteractor.invoke: Open  menu\t items COMPLETED").toList
      = [{ ts := some 1000, name := "Open menu items", kind := EvKind.start },
         { ts := some 2000, name := "Open menu items", kind := EvKind.complete }] := by
  rfl

theorem claim_C2_amended_witness :
    (procEvent wOpenState { ts := some 9, name := "A", kind := EvKind.start }).last
      = wOpenState.last ∧
    (procEvent wOpenState { ts := some 9, name := "A", kind := EvKind.complete }).last
      = some (max (wOpenState.last.getD 9) 9) ∧
    (procEvent wOpenState { ts := some 9, name := "A", kind := EvKind.fail }).last
      = some (max (wOpenState.last.getD 9) 9) ∧
    (procEvent wOpenState { ts := none, name := "A", kind := EvKind.complete }).last
      = wOpenState.last ∧
    (∃ m, (finalizeStack wOpenState).last = some m ∧ 1 ≤ m) :=
  claim_C2_amended wOpenState "A" (some 9) 9 1 0 (by decide) (by decide)

end Maestro
